import Mathlib

/-!
Verification of the resumable batch inference runner of this repository
(src/run_gemini_hr.py and src/run_gemini_swe.py), via a shallow embedding.

Strings are modelled as lists of characters (`Str`).  Python regular
expression operations used by the code (`re.findall(r"\d+", …)`,
`TAG_RE.search`, `EXPL_RE.search`) are embedded as executable scanners over
`Str`; the runner loop of `main` is embedded as a function producing a
trace of events, and process interruption is modelled as truncating the
trace at an arbitrary point.
-/

abbrev Str := List Char

/-- Lower-casing of one ASCII character, used to embed the `re.I`
(case-insensitive) flag of the tag regexes. -/
def lcChar (c : Char) : Char :=
  if 'A' ≤ c ∧ c ≤ 'Z' then Char.ofNat (c.toNat + 32) else c

/-- Lower-casing of a string (character-wise). -/
def lowerStr (s : Str) : Str := s.map lcChar

/-- Embeds the regex character class `\d` (ASCII decimal digit). -/
def isDigitCh (c : Char) : Bool := decide ('0' ≤ c ∧ c ≤ '9')

/-- Embeds Python whitespace as stripped by `str.strip()`. -/
def isSpaceCh (c : Char) : Bool :=
  c == ' ' || c == '\t' || c == '\n' || c == '\x0d' || c == '\x0b' || c == '\x0c'

/-- Embeds Python `str.strip()`: drop leading and trailing whitespace. -/
def pyStrip (s : Str) : Str :=
  ((s.dropWhile isSpaceCh).reverse.dropWhile isSpaceCh).reverse

/-- Case-insensitive literal prefix match: if (lower-cased) `pat` is a
prefix of (lower-cased) `s`, return the remainder of `s` after it. -/
def stripPrefixCI : Str → Str → Option Str
  | [], s => some s
  | _ :: _, [] => none
  | p :: ps, c :: cs => if lcChar c = lcChar p then stripPrefixCI ps cs else none

/-- Scan `s` left to right for the first case-insensitive occurrence of the
literal `pat`; return the part before the occurrence and the part after it.
This embeds the search for one literal token of the tag regexes. -/
def findSplitCI (pat : Str) : Str → Option (Str × Str)
  | [] =>
    match stripPrefixCI pat [] with
    | some r => some ([], r)
    | none => none
  | c :: cs =>
    match stripPrefixCI pat (c :: cs) with
    | some r => some ([], r)
    | none =>
      match findSplitCI pat cs with
      | some (a, b) => some (c :: a, b)
      | none => none

/-- The literal `<explanation>` (opening tag). -/
def explOpen : Str := "<explanation>".toList

/-- The literal `</explanation>` (closing tag). -/
def explClose : Str := "</explanation>".toList

/-- The literal `<top-3>` (opening tag). -/
def top3Open : Str := "<top-3>".toList

/-- The literal `</top-3>` (closing tag). -/
def top3Close : Str := "</top-3>".toList

/-- Embeds `TAG_RE.search(txt)` of src/run_gemini_hr.py, where
`TAG_RE = re.compile(r"<explanation>.*?</explanation>.*?<top-3>.*?\d", re.S|re.I)`:
the search succeeds iff the three tag literals occur in order
(case-insensitively) and a digit occurs after the `<top-3>` literal. -/
def TAG_RE_search (txt : Str) : Bool :=
  match findSplitCI explOpen txt with
  | none => false
  | some (_, r1) =>
    match findSplitCI explClose r1 with
    | none => false
    | some (_, r2) =>
      match findSplitCI top3Open r2 with
      | none => false
      | some (_, r3) => r3.any isDigitCh

/-- Embeds `EXPL_RE.search(txt)` of src/run_gemini_swe.py (the same regex is
inlined in src/run_gemini_hr.py `main`), where
`EXPL_RE = re.compile(r"<explanation>(.*?)</explanation>.*?<top-3>(.*?)</top-3>", re.S|re.I)`.
Returns the two captured groups on success.  The lazy groups capture the
text between the first `<explanation>` and the first `</explanation>` after
it, and between the first `<top-3>` after that and the first `</top-3>`
after it, matching the Python leftmost-match semantics for this pattern. -/
def findTags (txt : Str) : Option (Str × Str) :=
  match findSplitCI explOpen txt with
  | none => none
  | some (_, r1) =>
    match findSplitCI explClose r1 with
    | none => none
    | some (g1, r2) =>
      match findSplitCI top3Open r2 with
      | none => none
      | some (_, r3) =>
        match findSplitCI top3Close r3 with
        | none => none
        | some (g2, _) => some (g1, g2)

/-- Embeds `split_response` of src/run_gemini_swe.py:
return `("", txt)` when the structural match fails, else the two stripped
groups. -/
def split_response (txt : Str) : Str × Str :=
  match findTags txt with
  | none => ([], txt)
  | some (g1, g2) => (pyStrip g1, pyStrip g2)

/-- Maximal runs of consecutive digits, accumulator form (current run is
kept reversed in `acc`). -/
def digitRunsAux (acc : Str) : Str → List Str
  | [] => if acc = [] then [] else [acc.reverse]
  | c :: cs =>
    if isDigitCh c then digitRunsAux (c :: acc) cs
    else if acc = [] then digitRunsAux [] cs
    else acc.reverse :: digitRunsAux [] cs

/-- Embeds `re.findall(r"\d+", s)`: the maximal digit runs of `s`, in
left-to-right order. -/
def digitRuns (s : Str) : List Str := digitRunsAux [] s

/-- Embeds Python `int(…)` on a nonempty string of decimal digits. -/
def numVal (ds : Str) : Nat := ds.foldl (fun a c => a * 10 + (c.toNat - 48)) 0

/-- The integer substrings of `s`, in left-to-right order
(`[int(n) for n in re.findall(r"\d+", s)]`). -/
def pyFindallInts (s : Str) : List Nat := (digitRuns s).map numVal

/-- Embeds the loop body of `parse_selection` (both runners): for each
extracted integer `n`, `i = int(n)-1`; keep `pids[i]` when `0 ≤ i < len(pids)`
and it was not already selected.  Over natural numbers `0 ≤ int(n)-1 < len`
is `1 ≤ n ∧ n ≤ len`. -/
def parseSelLoop (pids : List Str) : List Nat → List Str → List Str
  | [], sel => sel
  | n :: rest, sel =>
    if 1 ≤ n ∧ n ≤ pids.length then
      let p := pids.getD (n - 1) []
      if p ∈ sel then parseSelLoop pids rest sel
      else parseSelLoop pids rest (sel ++ [p])
    else parseSelLoop pids rest sel

/-- Embeds `parse_selection(line, pids)` of both runners. -/
def parse_selection (line : Str) (pids : List Str) : List Str :=
  parseSelLoop pids (pyFindallInts line) []

/-- Deduplication keeping first occurrences, accumulator form. -/
def dedupFirstGo (seen : List Str) : List Str → List Str
  | [] => []
  | x :: xs =>
    if x ∈ seen then dedupFirstGo seen xs
    else x :: dedupFirstGo (seen ++ [x]) xs

/-- Deduplication keeping the first occurrence of each element, preserving
first-mention order (the spec-side description of selection collapse). -/
def dedupFirst (l : List Str) : List Str := dedupFirstGo [] l

/-- Spec-side resolution pipeline: interpret each extracted integer as a
1-based display position into `pids`, silently dropping out-of-range
positions (no deduplication yet). -/
def resolvePositions (line : Str) (pids : List Str) : List Str :=
  (pyFindallInts line).filterMap
    (fun n => if 1 ≤ n ∧ n ≤ pids.length then some (pids.getD (n - 1) []) else none)

/-- `MAX_RETRIES` of both runners. -/
def MAX_RETRIES : Nat := 3

/-- `BACKOFF_BASE` of both runners (1.5 seconds), as a rational. -/
def BACKOFF_BASE : ℚ := 3 / 2

/-- `PROMPTS_PER_KEY` of both runners. -/
def PROMPTS_PER_KEY : Nat := 450

/-- Embeds `pick_api_key` of both runners:
`KEY_LIST[((idx - 1) // PROMPTS_PER_KEY) % len(KEY_LIST)]`. -/
def pick_api_key (keys : List Str) (idx : Nat) : Option Str :=
  keys[((idx - 1) / PROMPTS_PER_KEY) % keys.length]?

/-- The spec-side credential selection contract:
`select(global_index, num_credentials, block_size)` with
`block = (global_index - 1) div block_size` and
`credential_index = block mod num_credentials`. -/
def selectCredential (globalIndex numCredentials blockSize : Nat) : Nat :=
  ((globalIndex - 1) / blockSize) % numCredentials

/-- Outcome of one upstream attempt inside the invoker: either the call
raised an exception (transport error, carrying its message) or returned a
text. -/
inductive AttemptR where
  | exc : Str → AttemptR
  | ok : Str → AttemptR

/-- One attempt of the invoker retry loop, given a validator and an oracle
`o` of attempt outcomes: the attempt produces `some t` (stripped text,
stopping the loop) iff the call returned text `t0` with
`validate(t0.strip())` true; any exception or validation failure is `none`
(a failed attempt). -/
def attemptResult (validate : Str → Bool) (o : Nat → AttemptR) (a : Nat) : Option Str :=
  match o a with
  | AttemptR.exc _ => none
  | AttemptR.ok t0 =>
    let t := pyStrip t0
    if validate t then some t else none

/-- The retry loop of `call_model` / `call_gemini`, at attempt number `a`
with `fuel` attempts remaining.  Returns the result text, the number of
attempts made, and the list of backoff sleep durations
(`BACKOFF_BASE ** attempt` after each failed non-final attempt).  All
exceptions are caught inside the loop (`except Exception`), so the
function is total and never propagates an error. -/
def callLoop (validate : Str → Bool) (o : Nat → AttemptR) : Nat → Nat → Str × Nat × List ℚ
  | _, 0 => ([], 0, [])
  | a, fuel + 1 =>
    match attemptResult validate o a with
    | some t => (t, 1, [])
    | none =>
      if fuel = 0 then ([], 1, [])
      else
        let r := callLoop validate o (a + 1) fuel
        (r.1, r.2.1 + 1, BACKOFF_BASE ^ a :: r.2.2)

/-- Embeds the invoker (`call_model` of src/run_gemini_hr.py and
`call_gemini` of src/run_gemini_swe.py), generic in the per-attempt
validator: attempts 1 to `MAX_RETRIES`, returning the empty string on
exhaustion. -/
def call_model (validate : Str → Bool) (o : Nat → AttemptR) : Str × Nat × List ℚ :=
  callLoop validate o 1 MAX_RETRIES

/-- Per-attempt validator of src/run_gemini_hr.py `call_model`:
`TAG_RE.search(txt)` must succeed (`raise ValueError` otherwise). -/
def hrAttemptOk (txt : Str) : Bool := TAG_RE_search txt

/-- Per-attempt validator of src/run_gemini_swe.py `call_gemini`:
`re.search(r"\d", text)` must succeed (`raise ValueError` otherwise). -/
def sweAttemptOk (txt : Str) : Bool := txt.any isDigitCh

/-- Embeds Python `s.split(",")`: split at every comma, keeping empty
pieces (so `"".split(",") == [""]`). -/
def pySplitComma : Str → List Str
  | [] => [[]]
  | c :: cs =>
    if c = ',' then [] :: pySplitComma cs
    else
      match pySplitComma cs with
      | h :: t => (c :: h) :: t
      | [] => [[c]]

/-- Embeds the `KEY_LIST` construction of both runners:
`[k.strip() for k in os.getenv("GOOGLE_API_KEYS", "").split(",") if k.strip()]`
where an absent environment variable reads as the empty string. -/
def keyListOf (env : Option Str) : List Str :=
  ((pySplitComma (env.getD [])).map pyStrip).filter (fun k => k ≠ [])

/-- Embeds the startup credential check of both runners:
`if len(KEY_LIST) < 2: raise RuntimeError(...)`, executed at import time,
before `main` runs. -/
def startupKeys (env : Option Str) : Except Str (List Str) :=
  let ks := keyListOf env
  if ks.length < 2 then Except.error ("Need at least two keys in GOOGLE_API_KEYS".toList)
  else Except.ok ks

/-- The template substitution placeholder `{{candidates_block}}`
(braces escaped). -/
def candidatesPlaceholder : Str := "\x7b\x7bcandidates_block\x7d\x7d".toList

/-- The fixed suffix the HR runner appends to every rendered prompt. -/
def hrSuffix : Str := "\n\nPlease add a brief rationale.".toList

/-- Embeds Python `s.replace(old, new)` for nonempty `old`: replace every
non-overlapping occurrence, scanning left to right.  (For `old = []` it
returns `s` unchanged; the runners only use the nonempty placeholder.) -/
def pyReplace (s old new : Str) : Str :=
  match s with
  | [] => []
  | c :: cs =>
    if old ≠ [] ∧ old.isPrefixOf (c :: cs) then
      new ++ pyReplace ((c :: cs).drop old.length) old new
    else
      c :: pyReplace cs old new
termination_by s.length
decreasing_by
  · simp only [List.length_drop, List.length_cons]
    have hol : old.length ≠ 0 := by
      intro h0
      exact (by assumption : old ≠ [] ∧ _).1 (List.eq_nil_of_length_eq_zero h0)
    omega
  · simp

/-- Embeds the SWE prompt construction (src/run_gemini_swe.py line 126):
`tmpl.replace("{{candidates_block}}", block)`. -/
def swePrompt (tpl block : Str) : Str := pyReplace tpl candidatesPlaceholder block

/-- Embeds the HR prompt construction (src/run_gemini_hr.py lines 109-110):
`tpl.replace("{{candidates_block}}", block) + "\n\nPlease add a brief rationale."`. -/
def hrPrompt (tpl block : Str) : Str := pyReplace tpl candidatesPlaceholder block ++ hrSuffix

/-- The parsed fields of an Invocation Record (the fields of `rec` in
`main` that depend on the model response; the remaining fields are
functions of the scenario alone). -/
structure RecData where
  response : Str
  rationale : Str
  selection : Str
  selected : List Str
deriving DecidableEq

/-- Embeds the record-field construction of src/run_gemini_hr.py `main`
(lines 115-121): `rat, selb = ("","")`; `sel_ids = []`; only `if resp:`
are the regex split and `parse_selection` applied. -/
def mkRecHR (resp : Str) (pids : List Str) : RecData :=
  if resp = [] then ⟨[], [], [], []⟩
  else
    let rs := split_response resp
    ⟨resp, rs.1, rs.2, parse_selection rs.2 pids⟩

/-- Embeds the record-field construction of src/run_gemini_swe.py `main`
(lines 130-131): `rat, selb = split_response(resp)`;
`sel_ids = parse_selection(selb, ...)`, applied unconditionally. -/
def mkRecSWE (resp : Str) (pids : List Str) : RecData :=
  let rs := split_response resp
  ⟨resp, rs.1, rs.2, parse_selection rs.2 pids⟩

/-- Observable events of one execution of `main`, in program order:
`skip i` (the `idx_global <= done: continue` branch), `invoke i` (the
upstream call for global index `i`), `append i rec` (the record is written
to the run log and flushed), `saveCp i` (the checkpoint file is rewritten
to `i`), `pace i` (the fixed `DELAY_SECONDS` sleep). -/
inductive Ev where
  | skip : Nat → Ev
  | invoke : Nat → Ev
  | append : Nat → RecData → Ev
  | saveCp : Nat → Ev
  | pace : Nat → Ev
deriving DecidableEq

/-- Embeds the inner `for si, (style_key, tpl) in enumerate(style_items, 1)`
loop of `main`: `ns` styles in total, current variant number `vi`, current
checkpoint variable `done`, next style number `si`, `rem` styles left.
`recOf vi idx` abstracts the record built for variant `vi` at global index
`idx`.  Returns the events emitted and the final value of `done`. -/
def stylesLoop (recOf : Nat → Nat → RecData) (ns vi : Nat) :
    Nat → Nat → Nat → List Ev × Nat
  | done, _, 0 => ([], done)
  | done, si, rem + 1 =>
    let idx := (vi - 1) * ns + si
    if idx ≤ done then
      let r := stylesLoop recOf ns vi done (si + 1) rem
      (Ev.skip idx :: r.1, r.2)
    else
      let r := stylesLoop recOf ns vi idx (si + 1) rem
      (Ev.invoke idx :: Ev.append idx (recOf vi idx) :: Ev.saveCp idx :: Ev.pace idx :: r.1,
       r.2)

/-- Embeds the outer `for vi, var in enumerate(variants, 1)` loop of
`main`, including the dry-run break
(`if dry_run and vi > DRY_RUN_LIMIT: break`). -/
def variantsLoop (recOf : Nat → Nat → RecData) (dry : Bool) (limit ns : Nat) :
    Nat → Nat → Nat → List Ev × Nat
  | done, _, 0 => ([], done)
  | done, vi, rem + 1 =>
    if dry ∧ limit < vi then ([], done)
    else
      let r1 := stylesLoop recOf ns vi done 1 ns
      let r2 := variantsLoop recOf dry limit ns r1.2 (vi + 1) rem
      (r1.1 ++ r2.1, r2.2)

/-- Embeds `load_checkpoint` of both runners: the checkpoint file read once
at startup, an absent file read as 0. -/
def load_checkpoint (cp : Option Nat) : Nat := cp.getD 0

/-- One full (uninterrupted) execution of `main` with `nv` variants, `ns`
styles and starting checkpoint `k`, with dry run disabled: the event trace
it emits.  `recOf` abstracts the per-scenario record construction. -/
def runnerTrace (recOf : Nat → Nat → RecData) (nv ns k : Nat) : List Ev :=
  (variantsLoop recOf false 0 ns k 1 nv).1

/-- The record `main` of src/run_gemini_hr.py builds for variant `vi` at
global index `idx`, given the oracle `resp` of invoker results per global
index and the persona lists `pidsOf` per variant. -/
def hrRecOf (resp : Nat → Str) (pidsOf : Nat → List Str) : Nat → Nat → RecData :=
  fun vi idx => mkRecHR (resp idx) (pidsOf vi)

/-- The full event trace of one uninterrupted non-dry-run execution of
src/run_gemini_hr.py `main` from checkpoint `k`. -/
def hrTrace (resp : Nat → Str) (pidsOf : Nat → List Str) (nv ns k : Nat) : List Ev :=
  runnerTrace (hrRecOf resp pidsOf) nv ns k

/-- The variant number a global index belongs to:
`idx = (vi - 1) * ns + si` with `1 ≤ si ≤ ns` gives `vi = (idx-1)/ns + 1`. -/
def viOf (ns idx : Nat) : Nat := (idx - 1) / ns + 1

/-- The block of events `main` emits for one scenario at global index
`idx`, given starting checkpoint `k` (normal form of the loop). -/
def blockOf (recOf : Nat → Nat → RecData) (ns k idx : Nat) : List Ev :=
  if idx ≤ k then [Ev.skip idx]
  else [Ev.invoke idx, Ev.append idx (recOf (viOf ns idx) idx),
        Ev.saveCp idx, Ev.pace idx]

/-- Normal form of the runner trace: one block per global index in
`lo, lo+1, …, lo+n-1`. -/
def normalTrace (recOf : Nat → Nat → RecData) (ns k lo n : Nat) : List Ev :=
  (List.range' lo n).flatMap (blockOf recOf ns k)

/-- Global indices whose upstream invocation happens in a trace. -/
def invokedIdx (l : List Ev) : List Nat :=
  l.filterMap (fun e => match e with | Ev.invoke i => some i | _ => none)

/-- Global indices skipped (`idx_global <= done`) in a trace. -/
def skippedIdx (l : List Ev) : List Nat :=
  l.filterMap (fun e => match e with | Ev.skip i => some i | _ => none)

/-- Global indices whose Invocation Record is appended (and flushed) to the
run log in a trace, in append order: the run-log content contributed by the
trace. -/
def appendedIdx (l : List Ev) : List Nat :=
  l.filterMap (fun e => match e with | Ev.append i _ => some i | _ => none)

/-- The checkpoint values persisted by a trace, in write order. -/
def cpWrites (l : List Ev) : List Nat :=
  l.filterMap (fun e => match e with | Ev.saveCp i => some i | _ => none)

/-- The checkpoint on disk after the events `l`, starting from persisted
value `c`: the last `saveCp` value, if any. -/
def lastCpFrom (c : Nat) (l : List Ev) : Nat :=
  l.foldl (fun acc e => match e with | Ev.saveCp j => j | _ => acc) c

/-- One process start of src/run_gemini_hr.py that is killed after `cut`
events: it opens a NEW timestamped run-log file (`RUN_LOG` is named from
the process start time), reads the persisted checkpoint `st.1`, emits the
first `cut` events of its trace, and dies.  The persisted state becomes
the last checkpoint written (the full checkpoint-after-run when the trace
is exhausted, in which case the completed run also deletes the checkpoint
file when `done >= total`, read back as 0).  The new log file holds the
records appended by the truncated trace. -/
def runStep (resp : Nat → Str) (pidsOf : Nat → List Str) (nv ns : Nat)
    (st : Nat × List (List Nat)) (cut : Nat) : Nat × List (List Nat) :=
  let tr := hrTrace resp pidsOf nv ns st.1
  let p := tr.take cut
  let d := lastCpFrom st.1 p
  let c := if tr.length ≤ cut ∧ nv * ns ≤ d then 0 else d
  (c, st.2 ++ [appendedIdx p])

/-- A sequence of interrupted executions, starting from no checkpoint:
folds `runStep` over the interruption points.  Returns the persisted
checkpoint and the run-log files produced so far (one per process start,
in order). -/
def runSeqSt (resp : Nat → Str) (pidsOf : Nat → List Str) (nv ns : Nat)
    (cuts : List Nat) : Nat × List (List Nat) :=
  cuts.foldl (runStep resp pidsOf nv ns) (0, [])

/-- The run-log files after a sequence of interrupted executions followed
by one final execution that runs to completion: the log-file contents as
lists of appended global indices, in file order (the last file is the
completing run's log). -/
def finalFiles (resp : Nat → Str) (pidsOf : Nat → List Str) (nv ns : Nat)
    (cuts : List Nat) : List (List Nat) :=
  let st := runSeqSt resp pidsOf nv ns cuts
  st.2 ++ [appendedIdx (hrTrace resp pidsOf nv ns st.1)]

/-- Validity of a sequence of interruption points: every interrupted
execution really is interrupted (the cut falls strictly inside its trace,
so no mid-sequence run completes and deletes the checkpoint), and no cut
falls in the window between appending a record and persisting its
checkpoint (every appended index is covered by the persisted checkpoint). -/
def cutsOk (resp : Nat → Str) (pidsOf : Nat → List Str) (nv ns : Nat) :
    Nat → List Nat → Bool
  | _, [] => true
  | c, n :: rest =>
    let tr := hrTrace resp pidsOf nv ns c
    let p := tr.take n
    let d := lastCpFrom c p
    decide (n < tr.length) && (appendedIdx p).all (fun i => i ≤ d) &&
      cutsOk resp pidsOf nv ns d rest

/-- Declarative characterization of a successful `TAG_RE` search: the three
tag literals occur in order (case-insensitively) with a digit somewhere
after the `<top-3>` literal. -/
def HRShape (txt : Str) : Prop :=
  ∃ a t1 b t2 c t3 d, txt = a ++ t1 ++ b ++ t2 ++ c ++ t3 ++ d
    ∧ lowerStr t1 = explOpen ∧ lowerStr t2 = explClose ∧ lowerStr t3 = top3Open
    ∧ d.any isDigitCh = true

/-- Presence of the expected structural markers (the explanation/top-3 tag
pattern), as the claim words it: the tag literals occur in order
(case-insensitively), with no constraint on where digits appear. -/
def MarkersPresent (txt : Str) : Prop :=
  ∃ a t1 b t2 c t3 d, txt = a ++ t1 ++ b ++ t2 ++ c ++ t3 ++ d
    ∧ lowerStr t1 = explOpen ∧ lowerStr t2 = explClose ∧ lowerStr t3 = top3Open

/-- The claim-side acceptance condition for one invocation attempt: the
result contains the expected structural markers and at least one digit. -/
def claimAccepts (txt : Str) : Prop :=
  MarkersPresent txt ∧ txt.any isDigitCh = true

/-- Declarative characterization of a successful `EXPL_RE` match: all four
tag literals occur in order (case-insensitively). -/
def TagQuad (txt : Str) : Prop :=
  ∃ a t1 g1 t2 b t3 g2 t4 c,
    txt = a ++ t1 ++ g1 ++ t2 ++ b ++ t3 ++ g2 ++ t4 ++ c
    ∧ lowerStr t1 = explOpen ∧ lowerStr t2 = explClose
    ∧ lowerStr t3 = top3Open ∧ lowerStr t4 = top3Close

/-- The program as started: the startup credential check runs at import
time; only if it passes does `main` run and emit a trace.  A configuration
error aborts before any scenario is processed. -/
def runProgram (env : Option Str) (recOf : Nat → Nat → RecData) (nv ns k : Nat) :
    Except Str (List Ev) :=
  match startupKeys env with
  | Except.error e => Except.error e
  | Except.ok _ => Except.ok (runnerTrace recOf nv ns k)

/-- Claim C4: credential rotation is the pure function
`((i - 1) div block_size) mod num_credentials` of the global index; with
block size 450 and two credentials, indices 1-450 map to credential 0,
451-900 to credential 1, and 901-1350 to credential 0. -/
theorem credential_rotation :
    (∀ (keys : List Str) (idx : Nat),
       pick_api_key keys idx = keys[selectCredential idx keys.length PROMPTS_PER_KEY]?)
  ∧ (∀ (keys : List Str) (idx : Nat), keys.length = 2 →
       ((1 ≤ idx ∧ idx ≤ 450 → pick_api_key keys idx = keys[0]?)
        ∧ (451 ≤ idx ∧ idx ≤ 900 → pick_api_key keys idx = keys[1]?)
        ∧ (901 ≤ idx ∧ idx ≤ 1350 → pick_api_key keys idx = keys[0]?))) := by
  constructor
  · intro keys idx
    rfl
  · intro keys idx hk
    refine ⟨fun h => ?_, fun h => ?_, fun h => ?_⟩
    · have hd : (idx - 1) / 450 = 0 := Nat.div_eq_of_lt (by omega)
      simp [pick_api_key, PROMPTS_PER_KEY, hk, hd]
    · have hd : (idx - 1) / 450 = 1 := Nat.div_eq_of_lt_le (by omega) (by omega)
      simp [pick_api_key, PROMPTS_PER_KEY, hk, hd]
    · have hd : (idx - 1) / 450 = 2 := Nat.div_eq_of_lt_le (by omega) (by omega)
      simp [pick_api_key, PROMPTS_PER_KEY, hk, hd]

/-- Witness for C4 at a concrete two-credential list and the three
boundary indices. -/
theorem credential_rotation_witness :
    pick_api_key [['x'], ['y']] 1 = ([['x'], ['y']] : List Str)[0]?
  ∧ pick_api_key [['x'], ['y']] 451 = ([['x'], ['y']] : List Str)[1]?
  ∧ pick_api_key [['x'], ['y']] 901 = ([['x'], ['y']] : List Str)[0]? :=
  ⟨(credential_rotation.2 [['x'], ['y']] 1 rfl).1 (by decide),
   (credential_rotation.2 [['x'], ['y']] 451 rfl).2.1 (by decide),
   (credential_rotation.2 [['x'], ['y']] 901 rfl).2.2 (by decide)⟩

/-- Claim C9: fewer than two configured credentials (including absent or
empty configuration) is a fatal startup error raised before any scenario
is processed; with at least two credentials no such error is raised. -/
theorem startup_credential_check :
    (∀ env, (keyListOf env).length < 2 →
       ∃ e, startupKeys env = Except.error e
         ∧ ∀ recOf nv ns k, runProgram env recOf nv ns k = Except.error e)
  ∧ (∀ env, 2 ≤ (keyListOf env).length →
       startupKeys env = Except.ok (keyListOf env)
         ∧ ∀ recOf nv ns k,
             runProgram env recOf nv ns k = Except.ok (runnerTrace recOf nv ns k))
  ∧ (keyListOf none).length < 2
  ∧ (keyListOf (some [])).length < 2 := by
  refine ⟨?_, ?_, by decide, by decide⟩
  · intro env h
    refine ⟨"Need at least two keys in GOOGLE_API_KEYS".toList, ?_, ?_⟩
    · simp [startupKeys, if_pos h]
    · intro recOf nv ns k
      simp [runProgram, startupKeys, if_pos h]
  · intro env h
    have h2 : ¬ (keyListOf env).length < 2 := by omega
    constructor
    · simp [startupKeys, if_neg h2]
    · intro recOf nv ns k
      simp [runProgram, startupKeys, if_neg h2]

/-- Witness for C9: a two-key environment passes the check; the absent
environment fails it. -/
theorem startup_credential_check_witness :
    ((2:Nat) ≤ (keyListOf (some ("a,b".toList))).length
      ∧ startupKeys (some ("a,b".toList)) = Except.ok (keyListOf (some ("a,b".toList))))
  ∧ ((keyListOf none).length < 2
      ∧ ∃ e, startupKeys none = Except.error e) :=
  ⟨⟨by decide, (startup_credential_check.2.1 (some ("a,b".toList)) (by decide)).1⟩,
   ⟨by decide,
    (startup_credential_check.1 none (by decide)).elim
      (fun e he => ⟨e, he.1⟩)⟩⟩

/-- The selection loop equals resolution followed by
keep-first-occurrence deduplication relative to the accumulator. -/
theorem parseSelLoop_eq (pids : List Str) :
    ∀ (nums : List Nat) (sel : List Str),
      parseSelLoop pids nums sel =
        sel ++ dedupFirstGo sel (nums.filterMap
          (fun n => if 1 ≤ n ∧ n ≤ pids.length
                    then some (pids.getD (n - 1) []) else none)) := by
  intro nums
  induction nums with
  | nil => intro sel; simp [parseSelLoop, dedupFirstGo]
  | cons n rest ih =>
    intro sel
    by_cases h1 : 1 ≤ n ∧ n ≤ pids.length
    · by_cases h2 : pids.getD (n - 1) [] ∈ sel
      · simp only [parseSelLoop, if_pos h1, if_pos h2, List.filterMap_cons, ih,
          dedupFirstGo]
      · simp only [parseSelLoop, if_pos h1, if_neg h2, List.filterMap_cons, ih,
          dedupFirstGo, ite_false]
        simp
    · simp only [parseSelLoop, if_neg h1, List.filterMap_cons, ih]

/-- A string with no digit characters has no digit runs. -/
theorem digitRuns_of_no_digit :
    ∀ line : Str, (∀ c ∈ line, isDigitCh c = false) → digitRunsAux [] line = [] := by
  intro line
  induction line with
  | nil => intro _; rfl
  | cons c cs ih =>
    intro h
    have hc : isDigitCh c = false := h c (List.mem_cons_self c cs)
    simp only [digitRunsAux, hc, Bool.false_eq_true, if_false, if_pos rfl]
    exact ih (fun x hx => h x (List.mem_cons_of_mem c hx))

/-- Claim C7: selection resolution extracts the integer substrings in
left-to-right order, interprets each as a 1-based position into the
persona list, silently drops out-of-range positions and collapses
duplicate resolved identifiers to first occurrence; the text "1, 99, 3"
against 11 candidates yields positions 1 and 3 with no error, and a text
with no digits yields the empty selection. -/
theorem selection_resolution :
    (∀ (line : Str) (pids : List Str),
       parse_selection line pids = dedupFirst (resolvePositions line pids))
  ∧ parse_selection ("1, 99, 3".toList)
      [['a'], ['b'], ['c'], ['d'], ['e'], ['f'], ['g'], ['h'], ['i'], ['j'], ['k']]
      = [['a'], ['c']]
  ∧ (∀ (line : Str) (pids : List Str),
       (∀ c ∈ line, isDigitCh c = false) → parse_selection line pids = []) := by
  refine ⟨?_, by decide, ?_⟩
  · intro line pids
    simp [parse_selection, parseSelLoop_eq, dedupFirst, resolvePositions]
  · intro line pids h
    simp [parse_selection, pyFindallInts, digitRuns, digitRuns_of_no_digit line h,
      parseSelLoop]

/-- Witness for C7 at a concrete digit-free selection line. -/
theorem selection_resolution_witness :
    parse_selection ['x', 'y'] [['a']] = [] :=
  selection_resolution.2.2 ['x', 'y'] [['a']] (by decide)

/-- Claim C5: the invoker makes at most MAX_RETRIES attempts, sleeps
`BACKOFF_BASE ^ attempt` seconds after each failed non-final attempt,
returns the empty string after exactly MAX_RETRIES attempts when every
attempt fails, and (being a total function on caught attempt outcomes)
never propagates an exception: any nonempty result is a validated
attempt result. -/
theorem retry_exhaustion_no_raise (v : Str → Bool) (o : Nat → AttemptR)
    (res : Str) (n : Nat) (sls : List ℚ)
    (h : call_model v o = (res, n, sls)) :
    (1 ≤ n ∧ n ≤ MAX_RETRIES)
  ∧ sls = (List.range' 1 (n - 1)).map (fun a => BACKOFF_BASE ^ a)
  ∧ ((∀ a, 1 ≤ a → a ≤ MAX_RETRIES → attemptResult v o a = none) →
      n = MAX_RETRIES ∧ res = [])
  ∧ (res ≠ [] → attemptResult v o n = some res ∧ v res = true) := by
  have hval : ∀ (a : Nat) (t : Str), attemptResult v o a = some t → v t = true := by
    intro a t ht
    unfold attemptResult at ht
    rcases ho : o a with e | t0
    · rw [ho] at ht; exact absurd ht (by simp)
    · rw [ho] at ht
      simp only [] at ht
      by_cases hv : v (pyStrip t0)
      · rw [if_pos hv] at ht
        cases ht
        exact hv
      · rw [if_neg hv] at ht
        exact absurd ht (by simp)
  simp only [call_model, MAX_RETRIES] at h
  rcases h1 : attemptResult v o 1 with _ | t1
  · rcases h2 : attemptResult v o 2 with _ | t2
    · rcases h3 : attemptResult v o 3 with _ | t3
      · simp only [callLoop, h1, h2, h3] at h
        norm_num at h
        obtain ⟨hr, hn, hs⟩ := h
        subst hr; subst hn; subst hs
        refine ⟨by simp [MAX_RETRIES], by rw [show List.range' 1 (3 - 1) = [1, 2] from by decide]; simp [pow_one], ?_, ?_⟩
        · intro _; exact ⟨by simp [MAX_RETRIES], rfl⟩
        · intro hne; exact absurd rfl hne
      · simp only [callLoop, h1, h2, h3] at h
        norm_num at h
        obtain ⟨hr, hn, hs⟩ := h
        subst hr; subst hn; subst hs
        refine ⟨by simp [MAX_RETRIES], by rw [show List.range' 1 (3 - 1) = [1, 2] from by decide]; simp [pow_one], ?_, ?_⟩
        · intro hall
          exact absurd h3 (by simp [hall 3 (by omega) (by simp [MAX_RETRIES])])
        · intro _
          exact ⟨h3, hval 3 _ h3⟩
    · simp only [callLoop, h1, h2] at h
      norm_num at h
      obtain ⟨hr, hn, hs⟩ := h
      subst hr; subst hn; subst hs
      refine ⟨by simp [MAX_RETRIES], by rw [show List.range' 1 (2 - 1) = [1] from by decide]; simp [pow_one], ?_, ?_⟩
      · intro hall
        exact absurd h2 (by simp [hall 2 (by omega) (by simp [MAX_RETRIES])])
      · intro _
        exact ⟨h2, hval 2 _ h2⟩
  · simp only [callLoop, h1] at h
    norm_num at h
    obtain ⟨hr, hn, hs⟩ := h
    subst hr; subst hn; subst hs
    refine ⟨by simp [MAX_RETRIES], by decide, ?_, ?_⟩
    · intro hall
      exact absurd h1 (by simp [hall 1 (by omega) (by simp [MAX_RETRIES])])
    · intro _
      exact ⟨h1, hval 1 _ h1⟩

/-- Witness for C5 at an oracle whose every attempt raises: exactly
MAX_RETRIES attempts and the empty result. -/
theorem retry_exhaustion_no_raise_witness :
    (3:Nat) = MAX_RETRIES ∧ ([] : Str) = [] :=
  (retry_exhaustion_no_raise (fun _ => false) (fun _ => AttemptR.exc [])
      [] 3 [BACKOFF_BASE ^ 1, BACKOFF_BASE ^ 2] rfl).2.2.1
    (fun _ _ _ => rfl)

/-- Replacement is the identity on a text that does not contain the
(nonempty) pattern. -/
theorem pyReplace_no_occurrence (old new : Str) (_hold : old ≠ []) :
    ∀ s : Str, ¬ old <:+: s → pyReplace s old new = s := by
  intro s
  induction s with
  | nil => intro _; rw [pyReplace]
  | cons c cs ih =>
    intro hni
    have hpre : ¬ old.isPrefixOf (c :: cs) = true := by
      intro hp
      obtain ⟨t, ht⟩ := List.isPrefixOf_iff_prefix.mp hp
      exact hni ⟨[], t, by simpa using ht⟩
    rw [pyReplace]
    rw [if_neg (by
      intro hand
      exact hpre hand.2)]
    have : ¬ old <:+: cs := fun hin => hni (List.infix_cons hin)
    rw [ih this]

/-- Claim C10: for every template and candidates block, the HR prompt is
the substituted template followed by the fixed rationale suffix while the
SWE prompt is exactly the substituted template, so the two entry points
never render identical prompt texts; on templates not containing the
placeholder, substitution is the identity. -/
theorem prompt_suffix_divergence :
    (∀ tpl block : Str, hrPrompt tpl block = swePrompt tpl block ++ hrSuffix)
  ∧ (∀ tpl block : Str, hrPrompt tpl block ≠ swePrompt tpl block)
  ∧ (∀ tpl block : Str, ¬ candidatesPlaceholder <:+: tpl →
       swePrompt tpl block = tpl ∧ hrPrompt tpl block = tpl ++ hrSuffix) := by
  refine ⟨fun tpl block => rfl, ?_, ?_⟩
  · intro tpl block h
    have hlen := congrArg List.length h
    simp only [hrPrompt, swePrompt, List.length_append] at hlen
    have : 0 < hrSuffix.length := by decide
    omega
  · intro tpl block h
    have hid : pyReplace tpl candidatesPlaceholder block = tpl :=
      pyReplace_no_occurrence candidatesPlaceholder block (by decide) tpl h
    exact ⟨hid, by simp [hrPrompt, hid]⟩

/-- Witness for C10 at a concrete placeholder-free template. -/
theorem prompt_suffix_divergence_witness :
    swePrompt ['t'] ['b'] = ['t'] ∧ hrPrompt ['t'] ['b'] = ['t'] ++ hrSuffix :=
  prompt_suffix_divergence.2.2 ['t'] ['b'] (by decide)

/-- Lower-casing preserves length. -/
theorem lowerStr_length (s : Str) : (lowerStr s).length = s.length :=
  List.length_map s lcChar

/-- The tag literals are already lower case. -/
theorem lower_tags :
    lowerStr explOpen = explOpen ∧ lowerStr explClose = explClose
  ∧ lowerStr top3Open = top3Open ∧ lowerStr top3Close = top3Close := by decide

/-- Soundness of the case-insensitive prefix match: a successful match
peels off a segment that lower-cases to the pattern. -/
theorem stripPrefixCI_sound :
    ∀ (pat s r : Str), stripPrefixCI pat s = some r →
      ∃ m, s = m ++ r ∧ lowerStr m = lowerStr pat := by
  intro pat
  induction pat with
  | nil =>
    intro s r h
    cases h
    exact ⟨[], rfl, rfl⟩
  | cons p ps ih =>
    intro s r h
    cases s with
    | nil => cases h
    | cons c cs =>
      unfold stripPrefixCI at h
      by_cases hc : lcChar c = lcChar p
      · rw [if_pos hc] at h
        obtain ⟨m, hm, hl⟩ := ih cs r h
        refine ⟨c :: m, by simp [hm], ?_⟩
        simp only [lowerStr, List.map_cons] at hl ⊢
        exact by rw [hc, hl]
      · rw [if_neg hc] at h
        cases h

/-- Completeness of the case-insensitive prefix match. -/
theorem stripPrefixCI_complete :
    ∀ (pat m r : Str), lowerStr m = lowerStr pat →
      stripPrefixCI pat (m ++ r) = some r := by
  intro pat
  induction pat with
  | nil =>
    intro m r h
    have : m = [] := by
      have := congrArg List.length h
      simp [lowerStr_length] at this
      exact this
    subst this
    rfl
  | cons p ps ih =>
    intro m r h
    simp only [lowerStr, List.map_cons] at h
    rw [List.map_eq_cons_iff] at h
    obtain ⟨c, m2, rfl, hc, hm2⟩ := h
    simp only [List.cons_append, stripPrefixCI, hc, if_pos rfl]
    exact ih m2 r hm2

/-- Soundness of the scan: a successful search splits the string around a
segment that lower-cases to the pattern. -/
theorem findSplitCI_sound :
    ∀ (s pat a b : Str), findSplitCI pat s = some (a, b) →
      ∃ m, s = a ++ m ++ b ∧ lowerStr m = lowerStr pat := by
  intro s
  induction s with
  | nil =>
    intro pat a b h
    unfold findSplitCI at h
    rcases hsp : stripPrefixCI pat [] with _ | r
    · rw [hsp] at h; cases h
    · rw [hsp] at h
      cases h
      obtain ⟨m, hm, hl⟩ := stripPrefixCI_sound pat [] b hsp
      exact ⟨m, by simpa using hm, hl⟩
  | cons c cs ih =>
    intro pat a b h
    unfold findSplitCI at h
    rcases hsp : stripPrefixCI pat (c :: cs) with _ | r
    · rw [hsp] at h
      rcases hf : findSplitCI pat cs with _ | p
      · rw [hf] at h; cases h
      · rw [hf] at h
        rcases p with ⟨a2, b2⟩
        cases h
        obtain ⟨m, hm, hl⟩ := ih pat a2 b hf
        exact ⟨m, by simp [hm], hl⟩
    · rw [hsp] at h
      cases h
      obtain ⟨m, hm, hl⟩ := stripPrefixCI_sound pat (c :: cs) b hsp
      exact ⟨m, by simpa using hm, hl⟩

/-- Among two suffixes of the same list, the shorter is a suffix of the
longer. -/
theorem suffix_of_suffix_le (b r s : Str) (hb : b <:+ s) (hr : r <:+ s)
    (hlen : b.length ≤ r.length) : b <:+ r := by
  rw [← List.reverse_prefix] at hb hr ⊢
  exact List.prefix_of_prefix_length_le hb hr (by simpa using hlen)

/-- Completeness of the scan: if the pattern occurs (case-insensitively),
the search succeeds, and whatever followed the occurrence is a suffix of
the returned remainder. -/
theorem findSplitCI_complete :
    ∀ (a pat m b : Str), lowerStr m = lowerStr pat →
      ∃ a2 b2, findSplitCI pat (a ++ m ++ b) = some (a2, b2) ∧ b <:+ b2 := by
  intro a
  induction a with
  | nil =>
    intro pat m b hm
    cases hmb : m ++ b with
    | nil =>
      have hmnil : m = [] := by cases m with
        | nil => rfl
        | cons x xs => simp at hmb
      have hbnil : b = [] := by
        rw [hmnil] at hmb; simpa using hmb
      subst hmnil; subst hbnil
      refine ⟨[], [], ?_, List.suffix_refl []⟩
      have h0 : stripPrefixCI pat [] = some [] := stripPrefixCI_complete pat [] [] hm
      simp [findSplitCI, h0]
    | cons c cs =>
      have hs : stripPrefixCI pat (m ++ b) = some b := stripPrefixCI_complete pat m b hm
      rw [hmb] at hs
      refine ⟨[], b, ?_, List.suffix_refl b⟩
      simp only [List.nil_append, hmb, findSplitCI, hs]
  | cons x a2 ih =>
    intro pat m b hm
    simp only [List.cons_append]
    rcases hsp : stripPrefixCI pat (x :: (a2 ++ m ++ b)) with _ | r
    · obtain ⟨a3, b3, hf, hsuf⟩ := ih pat m b hm
      refine ⟨x :: a3, b3, ?_, hsuf⟩
      simp only [findSplitCI, hsp, hf]
    · refine ⟨[], r, ?_, ?_⟩
      · simp only [findSplitCI, hsp]
      · obtain ⟨m2, hm2, hl2⟩ := stripPrefixCI_sound pat _ r hsp
        have hbs : b <:+ x :: (a2 ++ m ++ b) := ⟨x :: (a2 ++ m), by simp⟩
        have hrs : r <:+ x :: (a2 ++ m ++ b) := ⟨m2, by rw [hm2]⟩
        have hml : m.length = m2.length := by
          have e1 := lowerStr_length m
          have e2 := lowerStr_length m2
          rw [hm] at e1; rw [hl2] at e2
          omega
        have hlen : b.length ≤ r.length := by
          have := congrArg List.length hm2
          simp [List.length_append] at this
          omega
        exact suffix_of_suffix_le b r _ hbs hrs hlen

/-- A predicate satisfied somewhere in a list is satisfied somewhere in any
list having it as a suffix. -/
theorem any_of_suffix (p : Char → Bool) (b b2 : Str) (h : b <:+ b2)
    (ha : b.any p = true) : b2.any p = true := by
  obtain ⟨t, rfl⟩ := h
  simp only [List.any_append, ha, Bool.or_true]

/-- The embedded `TAG_RE.search` succeeds exactly on texts where the three
tag literals occur in order (case-insensitively) with a digit after the
`<top-3>` literal. -/
theorem TAG_RE_search_iff (txt : Str) : TAG_RE_search txt = true ↔ HRShape txt := by
  constructor
  · intro h
    unfold TAG_RE_search at h
    rcases h1 : findSplitCI explOpen txt with _ | p1
    · simp only [h1] at h; exact absurd h (by simp)
    rcases p1 with ⟨a1, r1⟩
    simp only [h1] at h
    rcases h2 : findSplitCI explClose r1 with _ | p2
    · simp only [h2] at h; exact absurd h (by simp)
    rcases p2 with ⟨a2, r2⟩
    simp only [h2] at h
    rcases h3 : findSplitCI top3Open r2 with _ | p3
    · simp only [h3] at h; exact absurd h (by simp)
    rcases p3 with ⟨a3, r3⟩
    simp only [h3] at h
    obtain ⟨m1, hm1, hl1⟩ := findSplitCI_sound txt explOpen a1 r1 h1
    obtain ⟨m2, hm2, hl2⟩ := findSplitCI_sound r1 explClose a2 r2 h2
    obtain ⟨m3, hm3, hl3⟩ := findSplitCI_sound r2 top3Open a3 r3 h3
    refine ⟨a1, m1, a2, m2, a3, m3, r3, ?_, ?_, ?_, ?_, h⟩
    · rw [hm1, hm2, hm3]; simp [List.append_assoc]
    · rw [hl1]; exact lower_tags.1
    · rw [hl2]; exact lower_tags.2.1
    · rw [hl3]; exact lower_tags.2.2.1
  · rintro ⟨a, t1, b, t2, c, t3, d, heq, h1, h2, h3, hd⟩
    obtain ⟨a2, b2, hf1, hs1⟩ :=
      findSplitCI_complete a explOpen t1 (b ++ t2 ++ c ++ t3 ++ d)
        (h1.trans lower_tags.1.symm)
    have htxt : txt = a ++ t1 ++ (b ++ t2 ++ c ++ t3 ++ d) := by
      rw [heq]; simp [List.append_assoc]
    obtain ⟨p1, hp1⟩ := hs1
    have hb2 : b2 = (p1 ++ b) ++ t2 ++ (c ++ t3 ++ d) := by
      rw [← hp1]; simp [List.append_assoc]
    obtain ⟨a3, b3, hf2, hs2⟩ :=
      findSplitCI_complete (p1 ++ b) explClose t2 (c ++ t3 ++ d)
        (h2.trans lower_tags.2.1.symm)
    obtain ⟨p2, hp2⟩ := hs2
    have hb3 : b3 = (p2 ++ c) ++ t3 ++ d := by
      rw [← hp2]; simp [List.append_assoc]
    obtain ⟨a4, b4, hf3, hs3⟩ :=
      findSplitCI_complete (p2 ++ c) top3Open t3 d
        (h3.trans lower_tags.2.2.1.symm)
    have hany : b4.any isDigitCh = true := any_of_suffix _ d b4 hs3 hd
    unfold TAG_RE_search
    rw [htxt]
    simp only [hf1]
    rw [hb2]
    simp only [hf2]
    rw [hb3]
    simp only [hf3]
    exact hany

/-- Soundness of the structural split: a successful `EXPL_RE` match
decomposes the text around the two captured groups, and `split_response`
returns the stripped groups. -/
theorem findTags_sound (txt g1 g2 : Str) (h : findTags txt = some (g1, g2)) :
    split_response txt = (pyStrip g1, pyStrip g2)
    ∧ ∃ a t1 t2 b t3 t4 c,
        txt = a ++ t1 ++ g1 ++ t2 ++ b ++ t3 ++ g2 ++ t4 ++ c
        ∧ lowerStr t1 = explOpen ∧ lowerStr t2 = explClose
        ∧ lowerStr t3 = top3Open ∧ lowerStr t4 = top3Close := by
  refine ⟨by simp [split_response, h], ?_⟩
  unfold findTags at h
  rcases h1 : findSplitCI explOpen txt with _ | p1
  · simp only [h1] at h; exact absurd h (by simp)
  rcases p1 with ⟨a1, r1⟩
  simp only [h1] at h
  rcases h2 : findSplitCI explClose r1 with _ | p2
  · simp only [h2] at h; exact absurd h (by simp)
  rcases p2 with ⟨g1b, r2⟩
  simp only [h2] at h
  rcases h3 : findSplitCI top3Open r2 with _ | p3
  · simp only [h3] at h; exact absurd h (by simp)
  rcases p3 with ⟨a3, r3⟩
  simp only [h3] at h
  rcases h4 : findSplitCI top3Close r3 with _ | p4
  · simp only [h4] at h; exact absurd h (by simp)
  rcases p4 with ⟨g2b, r4⟩
  simp only [h4, Option.some.injEq, Prod.mk.injEq] at h
  obtain ⟨hg1, hg2⟩ := h
  obtain ⟨m1, hm1, hl1⟩ := findSplitCI_sound txt explOpen a1 r1 h1
  obtain ⟨m2, hm2, hl2⟩ := findSplitCI_sound r1 explClose g1b r2 h2
  obtain ⟨m3, hm3, hl3⟩ := findSplitCI_sound r2 top3Open a3 r3 h3
  obtain ⟨m4, hm4, hl4⟩ := findSplitCI_sound r3 top3Close g2b r4 h4
  refine ⟨a1, m1, m2, a3, m3, m4, r4, ?_, ?_, ?_, ?_, ?_⟩
  · rw [← hg1, ← hg2, hm1, hm2, hm3, hm4]; simp [List.append_assoc]
  · rw [hl1]; exact lower_tags.1
  · rw [hl2]; exact lower_tags.2.1
  · rw [hl3]; exact lower_tags.2.2.1
  · rw [hl4]; exact lower_tags.2.2.2

/-- Completeness of the structural split: on a text containing all four
tag literals in order, `EXPL_RE` matches. -/
theorem findTags_complete (txt : Str) (h : TagQuad txt) :
    ∃ p, findTags txt = some p := by
  obtain ⟨a, t1, g1, t2, b, t3, g2, t4, c, heq, h1, h2, h3, h4⟩ := h
  obtain ⟨a2, b2, hf1, hs1⟩ :=
    findSplitCI_complete a explOpen t1 (g1 ++ t2 ++ b ++ t3 ++ g2 ++ t4 ++ c)
      (h1.trans lower_tags.1.symm)
  have htxt : txt = a ++ t1 ++ (g1 ++ t2 ++ b ++ t3 ++ g2 ++ t4 ++ c) := by
    rw [heq]; simp [List.append_assoc]
  obtain ⟨p1, hp1⟩ := hs1
  have hb2 : b2 = (p1 ++ g1) ++ t2 ++ (b ++ t3 ++ g2 ++ t4 ++ c) := by
    rw [← hp1]; simp [List.append_assoc]
  obtain ⟨a3, b3, hf2, hs2⟩ :=
    findSplitCI_complete (p1 ++ g1) explClose t2 (b ++ t3 ++ g2 ++ t4 ++ c)
      (h2.trans lower_tags.2.1.symm)
  obtain ⟨p2, hp2⟩ := hs2
  have hb3 : b3 = (p2 ++ b) ++ t3 ++ (g2 ++ t4 ++ c) := by
    rw [← hp2]; simp [List.append_assoc]
  obtain ⟨a4, b4, hf3, hs3⟩ :=
    findSplitCI_complete (p2 ++ b) top3Open t3 (g2 ++ t4 ++ c)
      (h3.trans lower_tags.2.2.1.symm)
  obtain ⟨p3, hp3⟩ := hs3
  have hb4 : b4 = (p3 ++ g2) ++ t4 ++ c := by
    rw [← hp3]; simp [List.append_assoc]
  obtain ⟨a5, b5, hf4, _⟩ :=
    findSplitCI_complete (p3 ++ g2) top3Close t4 c
      (h4.trans lower_tags.2.2.2.symm)
  refine ⟨(a3, a5), ?_⟩
  unfold findTags
  rw [htxt]
  simp only [hf1]
  rw [hb2]
  simp only [hf2]
  rw [hb3]
  simp only [hf3]
  rw [hb4]
  simp only [hf4]

/-- Counterexample to claim C3 as stated: the SWE runner accepts the raw
result "7", which contains a digit but none of the expected structural
markers, so acceptance is not equivalent to markers-plus-digit. -/
theorem attempt_validation_counterexample :
    sweAttemptOk ['7'] = true ∧ ¬ claimAccepts ['7'] := by
  refine ⟨by decide, ?_⟩
  rintro ⟨⟨a, t1, b, t2, c, t3, d, heq, h1, _, _⟩, _⟩
  have e1 := congrArg List.length h1
  rw [lowerStr_length] at e1
  have e2 : explOpen.length = 13 := by decide
  have hlen := congrArg List.length heq
  simp [List.length_append] at hlen
  omega

/-- Claim C3 (amended): per-attempt validation differs between the two
entry points.  The SWE attempt accepts iff the result contains at least
one digit (no structural-marker check at all); the HR attempt accepts iff
the three tag markers occur in order with a digit after the `<top-3>`
marker; and within the retry loop an attempt whose call returned text is
accepted (stopping the loop with that stripped text) iff its validator
holds on the stripped text. -/
theorem attempt_validation_amended :
    (∀ txt : Str, sweAttemptOk txt = true ↔ ∃ c ∈ txt, isDigitCh c = true)
  ∧ (∀ txt : Str, hrAttemptOk txt = true ↔ HRShape txt)
  ∧ (∀ (v : Str → Bool) (o : Nat → AttemptR) (a : Nat) (t : Str),
       o a = AttemptR.ok t →
         (attemptResult v o a = some (pyStrip t) ↔ v (pyStrip t) = true)) := by
  refine ⟨?_, ?_, ?_⟩
  · intro txt
    simp [sweAttemptOk, List.any_eq_true]
  · intro txt
    exact TAG_RE_search_iff txt
  · intro v o a t ho
    unfold attemptResult
    rw [ho]
    by_cases hv : v (pyStrip t)
    · simp [hv]
    · simp [hv]

/-- Witness for C3 (amended), third conjunct, at a concrete oracle. -/
theorem attempt_validation_witness :
    attemptResult sweAttemptOk (fun _ => AttemptR.ok ['7']) 1 = some (pyStrip ['7'])
      ↔ sweAttemptOk (pyStrip ['7']) = true :=
  attempt_validation_amended.2.2 sweAttemptOk (fun _ => AttemptR.ok ['7']) 1 ['7'] rfl

/-- Counterexample to claim C8 as stated: on the round-trip example the
selection "2, 5, 5, 9" resolves position 9 to the ninth candidate, which
is i, not j as the claim asserts. -/
theorem split_roundtrip_counterexample :
    parse_selection
        (split_response
          ("<explanation>Good fit.</explanation><top-3>2, 5, 5, 9</top-3>".toList)).2
        [['a'], ['b'], ['c'], ['d'], ['e'], ['f'], ['g'], ['h'], ['i'], ['j'], ['k']]
      = [['b'], ['e'], ['i']]
  ∧ parse_selection
        (split_response
          ("<explanation>Good fit.</explanation><top-3>2, 5, 5, 9</top-3>".toList)).2
        [['a'], ['b'], ['c'], ['d'], ['e'], ['f'], ['g'], ['h'], ['i'], ['j'], ['k']]
      ≠ [['b'], ['e'], ['j']] := by
  constructor
  · decide
  · decide

/-- Claim C8 (amended): on the round-trip example the split returns the
two tag contents and the selection resolves to candidates b, e, i
(duplicate position 5 collapsed, order preserved); when the structural
match fails on a nonempty response the whole raw text becomes the
selection region with an empty rationale; and every successful match
returns the stripped contents of the two tag regions of a structural
decomposition of the text. -/
theorem split_fallback_amended :
    (split_response
        ("<explanation>Good fit.</explanation><top-3>2, 5, 5, 9</top-3>".toList)
      = ("Good fit.".toList, "2, 5, 5, 9".toList))
  ∧ (∀ txt : Str, txt ≠ [] → ¬ TagQuad txt → split_response txt = ([], txt))
  ∧ (∀ txt g1 g2 : Str, findTags txt = some (g1, g2) →
       split_response txt = (pyStrip g1, pyStrip g2)
       ∧ ∃ a t1 t2 b t3 t4 c,
           txt = a ++ t1 ++ g1 ++ t2 ++ b ++ t3 ++ g2 ++ t4 ++ c
           ∧ lowerStr t1 = explOpen ∧ lowerStr t2 = explClose
           ∧ lowerStr t3 = top3Open ∧ lowerStr t4 = top3Close) := by
  refine ⟨by decide, ?_, ?_⟩
  · intro txt _ hq
    rcases hft : findTags txt with _ | p
    · simp [split_response, hft]
    · rcases p with ⟨g1, g2⟩
      obtain ⟨_, hdec⟩ := findTags_sound txt g1 g2 hft
      obtain ⟨a, t1, t2, b, t3, t4, c, heq, h1, h2, h3, h4⟩ := hdec
      exact absurd ⟨a, t1, g1, t2, b, t3, g2, t4, c, heq, h1, h2, h3, h4⟩ hq
  · intro txt g1 g2 h
    exact findTags_sound txt g1 g2 h

/-- Witness for C8 (amended) at a concrete tag-free nonempty response. -/
theorem split_fallback_witness :
    split_response ['x'] = ([], ['x']) :=
  split_fallback_amended.2.1 ['x'] (by decide) (by
    rintro ⟨a, t1, g1, t2, b, t3, g2, t4, c, heq, h1, _, _, _⟩
    have e1 := congrArg List.length h1
    rw [lowerStr_length] at e1
    have e2 : explOpen.length = 13 := by decide
    have hlen := congrArg List.length heq
    simp [List.length_append] at hlen
    omega)

/-- Global indices inside one variant's style block resolve to that
variant number. -/
theorem viOf_eq (ns vi si : Nat) (h1 : 1 ≤ si) (h2 : si ≤ ns) (hv : 1 ≤ vi) :
    viOf ns ((vi - 1) * ns + si) = vi := by
  unfold viOf
  have hns : 0 < ns := by omega
  have e1 : (vi - 1) * ns + si - 1 = ns * (vi - 1) + (si - 1) := by
    rw [Nat.mul_comm]; omega
  rw [e1, Nat.mul_add_div hns]
  have e2 : (si - 1) / ns = 0 := Nat.div_eq_of_lt (by omega)
  rw [e2]
  omega

/-- The scenario block depends on the checkpoint only through the skip
test. -/
theorem blockOf_congr (recOf : Nat → Nat → RecData) (ns k1 k2 idx : Nat)
    (h : idx ≤ k1 ↔ idx ≤ k2) :
    blockOf recOf ns k1 idx = blockOf recOf ns k2 idx := by
  unfold blockOf
  by_cases h1 : idx ≤ k1
  · rw [if_pos h1, if_pos (h.mp h1)]
  · rw [if_neg h1, if_neg (fun h2 => h1 (h.mpr h2))]

/-- The empty normal trace. -/
theorem normalTrace_nil (recOf : Nat → Nat → RecData) (ns k lo : Nat) :
    normalTrace recOf ns k lo 0 = [] := rfl

/-- Unfolding one block of the normal trace. -/
theorem normalTrace_succ (recOf : Nat → Nat → RecData) (ns k lo n : Nat) :
    normalTrace recOf ns k lo (n + 1) =
      blockOf recOf ns k lo ++ normalTrace recOf ns k (lo + 1) n := by
  unfold normalTrace
  rw [List.range'_succ, List.flatMap_cons]

/-- Checkpoint congruence for the normal trace: only the comparisons at
indices in range matter. -/
theorem normalTrace_congr (recOf : Nat → Nat → RecData) (ns : Nat) :
    ∀ (n lo k1 k2 : Nat), (∀ j, lo ≤ j → (j ≤ k1 ↔ j ≤ k2)) →
      normalTrace recOf ns k1 lo n = normalTrace recOf ns k2 lo n := by
  intro n
  induction n with
  | zero => intro lo k1 k2 _; rfl
  | succ m ih =>
    intro lo k1 k2 h
    rw [normalTrace_succ, normalTrace_succ,
        blockOf_congr recOf ns k1 k2 lo (h lo le_rfl),
        ih (lo + 1) k1 k2 (fun j hj => h j (by omega))]

/-- Splitting the normal trace. -/
theorem normalTrace_append (recOf : Nat → Nat → RecData) (ns k lo m n : Nat) :
    normalTrace recOf ns k lo (m + n) =
      normalTrace recOf ns k lo m ++ normalTrace recOf ns k (lo + m) n := by
  unfold normalTrace
  have h := List.range'_append lo m n 1
  simp only [one_mul] at h
  rw [Nat.add_comm m n, ← h, List.flatMap_append]

/-- The inner style loop in normal form: entered at variant `vi`, style
`si`, with `rem` styles left and checkpoint variable `done`, it emits one
block per remaining global index, and leaves `done` at the larger of its
entry value and the last index of the range. -/
theorem stylesLoop_eq (recOf : Nat → Nat → RecData) (ns vi : Nat) (hv : 1 ≤ vi) :
    ∀ (rem si done : Nat), 1 ≤ si → si + rem ≤ ns + 1 →
      stylesLoop recOf ns vi done si rem =
        (normalTrace recOf ns done ((vi - 1) * ns + si) rem,
         if rem = 0 then done else max done ((vi - 1) * ns + si + rem - 1)) := by
  intro rem
  induction rem with
  | zero =>
    intro si done _ _
    simp [stylesLoop, normalTrace_nil]
  | succ r ih =>
    intro si done h1 h2
    have hsin : si ≤ ns := by omega
    have hvi : viOf ns ((vi - 1) * ns + si) = vi := viOf_eq ns vi si h1 hsin hv
    rw [normalTrace_succ]
    show (if (vi - 1) * ns + si ≤ done then
            let r2 := stylesLoop recOf ns vi done (si + 1) r
            (Ev.skip ((vi - 1) * ns + si) :: r2.1, r2.2)
          else
            let r2 := stylesLoop recOf ns vi ((vi - 1) * ns + si) (si + 1) r
            (Ev.invoke ((vi - 1) * ns + si)
              :: Ev.append ((vi - 1) * ns + si) (recOf vi ((vi - 1) * ns + si))
              :: Ev.saveCp ((vi - 1) * ns + si)
              :: Ev.pace ((vi - 1) * ns + si) :: r2.1, r2.2)) = _
    by_cases hc : (vi - 1) * ns + si ≤ done
    · rw [if_pos hc]
      rw [ih (si + 1) done (by omega) (by omega)]
      simp only [Prod.mk.injEq]
      constructor
      · unfold blockOf
        rw [if_pos hc]
        have e : (vi - 1) * ns + (si + 1) = (vi - 1) * ns + si + 1 := by omega
        rw [e]
        simp
      · set B := (vi - 1) * ns with hB
        by_cases hr : r = 0
        · rw [if_pos hr, if_neg (show ¬ (r + 1 = 0) by omega)]
          omega
        · rw [if_neg hr, if_neg (show ¬ (r + 1 = 0) by omega)]
          omega
    · rw [if_neg hc]
      rw [ih (si + 1) ((vi - 1) * ns + si) (by omega) (by omega)]
      simp only [Prod.mk.injEq]
      constructor
      · unfold blockOf
        rw [if_neg hc, hvi]
        have e : (vi - 1) * ns + (si + 1) = (vi - 1) * ns + si + 1 := by omega
        rw [e]
        rw [normalTrace_congr recOf ns r ((vi - 1) * ns + si + 1)
              ((vi - 1) * ns + si) done (fun j hj => by omega)]
        simp
      · set B := (vi - 1) * ns with hB
        by_cases hr : r = 0
        · rw [if_pos hr, if_neg (show ¬ (r + 1 = 0) by omega)]
          omega
        · rw [if_neg hr, if_neg (show ¬ (r + 1 = 0) by omega)]
          omega

/-- The outer variant loop (dry run disabled) in normal form: entered at
variant `vi` with `rem` variants left, it emits one block per remaining
global index. -/
theorem variantsLoop_eq (recOf : Nat → Nat → RecData) (ns : Nat) (hns : 1 ≤ ns) :
    ∀ (rem vi done : Nat), 1 ≤ vi →
      variantsLoop recOf false 0 ns done vi rem =
        (normalTrace recOf ns done ((vi - 1) * ns + 1) (rem * ns),
         if rem = 0 then done else max done ((vi - 1 + rem) * ns)) := by
  intro rem
  induction rem with
  | zero =>
    intro vi done _
    simp [variantsLoop, normalTrace_nil]
  | succ r ih =>
    intro vi done hv
    have hvins : (vi - 1) * ns + ns = vi * ns := by
      rw [← Nat.succ_mul]
      congr 1
      omega
    show (let r1 := stylesLoop recOf ns vi done 1 ns
          let r2 := variantsLoop recOf false 0 ns r1.2 (vi + 1) r
          (r1.1 ++ r2.1, r2.2)) = _
    rw [stylesLoop_eq recOf ns vi hv ns 1 done (by omega) (by omega)]
    simp only [if_neg (show ¬ ns = 0 by omega)]
    rw [ih (vi + 1) (max done ((vi - 1) * ns + 1 + ns - 1)) (by omega)]
    have hd1 : (vi - 1) * ns + 1 + ns - 1 = vi * ns := by omega
    rw [hd1]
    have hlo : (vi + 1 - 1) * ns + 1 = vi * ns + 1 := by
      norm_num
    rw [hlo]
    rw [normalTrace_congr recOf ns (r * ns) (vi * ns + 1)
          (max done (vi * ns)) done (fun j hj => by omega)]
    simp only [Prod.mk.injEq]
    constructor
    · have hsm : (r + 1) * ns = ns + r * ns := by
        rw [Nat.succ_mul]
        omega
      rw [hsm, normalTrace_append]
      have : (vi - 1) * ns + 1 + ns = vi * ns + 1 := by omega
      rw [this]
    · by_cases hr : r = 0
      · rw [if_pos hr, if_neg (show ¬ (r + 1 = 0) by omega)]
        have : (vi - 1 + (r + 1)) * ns = vi * ns := by
          congr 1
          omega
        rw [this]
      · rw [if_neg hr, if_neg (show ¬ (r + 1 = 0) by omega)]
        have e1 : (vi + 1 - 1 + r) * ns = (vi - 1 + (r + 1)) * ns := by
          congr 1
          omega
        rw [e1]
        have e2 : vi * ns ≤ (vi - 1 + (r + 1)) * ns :=
          Nat.mul_le_mul_right ns (by omega)
        set A := vi * ns with hA
        set C := (vi - 1 + (r + 1)) * ns with hC
        omega

/-- One uninterrupted non-dry-run execution of `main` from checkpoint `k`
emits exactly one block per global index 1 … nv*ns. -/
theorem runnerTrace_eq (recOf : Nat → Nat → RecData) (nv ns k : Nat) (hns : 1 ≤ ns) :
    runnerTrace recOf nv ns k = normalTrace recOf ns k 1 (nv * ns) := by
  unfold runnerTrace
  rw [variantsLoop_eq recOf ns hns nv 1 k le_rfl]
  norm_num

/-- The four index projections of the normal trace are the in-range
indices on the matching side of the checkpoint test. -/
theorem projections_normal (recOf : Nat → Nat → RecData) (ns k : Nat) :
    ∀ (n lo : Nat),
      invokedIdx (normalTrace recOf ns k lo n)
          = (List.range' lo n).filter (fun i => decide (k < i))
    ∧ skippedIdx (normalTrace recOf ns k lo n)
          = (List.range' lo n).filter (fun i => decide (i ≤ k))
    ∧ appendedIdx (normalTrace recOf ns k lo n)
          = (List.range' lo n).filter (fun i => decide (k < i))
    ∧ cpWrites (normalTrace recOf ns k lo n)
          = (List.range' lo n).filter (fun i => decide (k < i)) := by
  intro n
  induction n with
  | zero =>
    intro lo
    simp [normalTrace_nil, invokedIdx, skippedIdx, appendedIdx, cpWrites]
  | succ m ih =>
    intro lo
    obtain ⟨i1, i2, i3, i4⟩ := ih (lo + 1)
    rw [normalTrace_succ, List.range'_succ]
    simp only [invokedIdx, skippedIdx, appendedIdx, cpWrites] at i1 i2 i3 i4
    by_cases hc : lo ≤ k
    · have hnk : ¬ k < lo := by omega
      unfold blockOf
      rw [if_pos hc]
      refine ⟨?_, ?_, ?_, ?_⟩ <;>
        simp [invokedIdx, skippedIdx, appendedIdx, cpWrites,
          List.filterMap_append, List.filterMap_cons, List.filter_cons,
          hc, hnk, i1, i2, i3, i4]
    · have hkl : k < lo := by omega
      unfold blockOf
      rw [if_neg hc]
      refine ⟨?_, ?_, ?_, ?_⟩ <;>
        simp [invokedIdx, skippedIdx, appendedIdx, cpWrites,
          List.filterMap_append, List.filterMap_cons, List.filter_cons,
          hc, hkl, i1, i2, i3, i4]

/-- Indices above the checkpoint within `1 … total`. -/
theorem filter_range'_gt (k total : Nat) (h : k ≤ total) :
    (List.range' 1 total).filter (fun i => decide (k < i))
      = List.range' (k + 1) (total - k) := by
  have hsplit : List.range' 1 k ++ List.range' (1 + k) (total - k)
      = List.range' 1 total := by
    have happ := List.range'_append 1 k (total - k) 1
    simp only [one_mul] at happ
    rw [happ]
    congr 1
    omega
  rw [← hsplit, List.filter_append]
  have h1 : (List.range' 1 k).filter (fun i => decide (k < i)) = [] := by
    rw [List.filter_eq_nil_iff]
    intro a ha
    rw [List.mem_range'_1] at ha
    simp only [decide_eq_true_eq]
    omega
  have h2 : (List.range' (1 + k) (total - k)).filter (fun i => decide (k < i))
      = List.range' (1 + k) (total - k) := by
    rw [List.filter_eq_self]
    intro a ha
    rw [List.mem_range'_1] at ha
    simp only [decide_eq_true_eq]
    omega
  rw [h1, h2, Nat.add_comm 1 k]
  rfl

/-- Indices at or below the checkpoint within `1 … total`. -/
theorem filter_range'_le (k total : Nat) (h : k ≤ total) :
    (List.range' 1 total).filter (fun i => decide (i ≤ k)) = List.range' 1 k := by
  have hsplit : List.range' 1 k ++ List.range' (1 + k) (total - k)
      = List.range' 1 total := by
    have happ := List.range'_append 1 k (total - k) 1
    simp only [one_mul] at happ
    rw [happ]
    congr 1
    omega
  rw [← hsplit, List.filter_append]
  have h1 : (List.range' 1 k).filter (fun i => decide (i ≤ k))
      = List.range' 1 k := by
    rw [List.filter_eq_self]
    intro a ha
    rw [List.mem_range'_1] at ha
    simp only [decide_eq_true_eq]
    omega
  have h2 : (List.range' (1 + k) (total - k)).filter (fun i => decide (i ≤ k))
      = [] := by
    rw [List.filter_eq_nil_iff]
    intro a ha
    rw [List.mem_range'_1] at ha
    simp only [decide_eq_true_eq]
    omega
  rw [h1, h2, List.append_nil]

/-- A consecutive range starting just above `a` is a `≤`-chain from `a`. -/
theorem chain_le_range' : ∀ (n a : Nat), List.Chain (· ≤ ·) a (List.range' (a + 1) n) := by
  intro n
  induction n with
  | zero => intro a; exact List.Chain.nil
  | succ m ih =>
    intro a
    rw [List.range'_succ]
    exact List.Chain.cons (by omega) (ih (a + 1))

/-- An invocation event for index `i` occurs iff `i` is an invoked index. -/
theorem invoke_mem_iff (l : List Ev) (i : Nat) :
    Ev.invoke i ∈ l ↔ i ∈ invokedIdx l := by
  unfold invokedIdx
  rw [List.mem_filterMap]
  constructor
  · intro h
    exact ⟨Ev.invoke i, h, rfl⟩
  · rintro ⟨e, he, hm⟩
    rcases e with j | j | ⟨j, r⟩ | j | j <;> simp at hm
    rw [hm] at he
    exact he

/-- The invoke-append-saveCp block of every processed index is an infix of
the execution trace. -/
theorem processed_block_infix (recOf : Nat → Nat → RecData) (nv ns k i : Nat)
    (hns : 1 ≤ ns) (_hk : k ≤ nv * ns) (h1 : k < i) (h2 : i ≤ nv * ns) :
    [Ev.invoke i, Ev.append i (recOf (viOf ns i) i), Ev.saveCp i]
      <:+: runnerTrace recOf nv ns k := by
  rw [runnerTrace_eq recOf nv ns k hns]
  have hmem : i ∈ List.range' 1 (nv * ns) := by
    rw [List.mem_range'_1]
    omega
  obtain ⟨s, t, hst⟩ := List.append_of_mem hmem
  unfold normalTrace
  rw [hst, List.flatMap_append, List.flatMap_cons]
  refine ⟨s.flatMap (blockOf recOf ns k),
          Ev.pace i :: t.flatMap (blockOf recOf ns k), ?_⟩
  unfold blockOf
  rw [if_neg (by omega)]
  simp

/-- Claim C2: within a non-dry-run execution the persisted checkpoint
never decreases; the checkpoint is read once at startup with an absent
file read as 0; every scenario with global index at most the checkpoint is
skipped without invocation; a run resumed from checkpoint `k` invokes
exactly the indices `k+1 … total`; and each index's checkpoint write
follows its record append within the per-scenario event block. -/
theorem checkpoint_resume_semantics (recOf : Nat → Nat → RecData) (nv ns k : Nat)
    (hns : 1 ≤ ns) (hk : k ≤ nv * ns) :
    invokedIdx (runnerTrace recOf nv ns k) = List.range' (k + 1) (nv * ns - k)
  ∧ skippedIdx (runnerTrace recOf nv ns k) = List.range' 1 k
  ∧ (∀ i, i ≤ k → Ev.invoke i ∉ runnerTrace recOf nv ns k)
  ∧ cpWrites (runnerTrace recOf nv ns k) = List.range' (k + 1) (nv * ns - k)
  ∧ List.Chain (· ≤ ·) k (cpWrites (runnerTrace recOf nv ns k))
  ∧ (∀ i, k < i → i ≤ nv * ns →
      [Ev.invoke i, Ev.append i (recOf (viOf ns i) i), Ev.saveCp i]
        <:+: runnerTrace recOf nv ns k)
  ∧ load_checkpoint none = 0 ∧ (∀ c, load_checkpoint (some c) = c) := by
  have hnorm := runnerTrace_eq recOf nv ns k hns
  obtain ⟨p1, p2, p3, p4⟩ := projections_normal recOf ns k (nv * ns) 1
  have hinv : invokedIdx (runnerTrace recOf nv ns k)
      = List.range' (k + 1) (nv * ns - k) := by
    rw [hnorm, p1, filter_range'_gt k (nv * ns) hk]
  have hcp : cpWrites (runnerTrace recOf nv ns k)
      = List.range' (k + 1) (nv * ns - k) := by
    rw [hnorm, p4, filter_range'_gt k (nv * ns) hk]
  refine ⟨hinv, ?_, ?_, hcp, ?_, ?_, rfl, fun c => rfl⟩
  · rw [hnorm, p2, filter_range'_le k (nv * ns) hk]
  · intro i hi hmem
    rw [invoke_mem_iff, hinv, List.mem_range'_1] at hmem
    omega
  · rw [hcp]
    exact chain_le_range' (nv * ns - k) k
  · intro i hi1 hi2
    exact processed_block_infix recOf nv ns k i hns hk hi1 hi2

/-- Witness for C2 at two variants, one style, resuming from checkpoint 1:
only index 2 is invoked. -/
theorem checkpoint_resume_semantics_witness :
    invokedIdx (runnerTrace (fun _ _ => ⟨[], [], [], []⟩) 2 1 1)
      = List.range' 2 (2 * 1 - 1) :=
  (checkpoint_resume_semantics (fun _ _ => ⟨[], [], [], []⟩) 2 1 1
    (by decide) (by decide)).1

/-- Claim C6: a processed scenario whose invocation returns the empty
response yields a record with empty parsed fields and empty
selected_persona_ids (in both the HR and the SWE record construction),
and that record is still appended to the run log with the checkpoint
still advanced to the scenario's global index immediately afterwards. -/
theorem failed_call_record (resp : Nat → Str) (pidsOf : Nat → List Str)
    (nv ns k i : Nat) (hns : 1 ≤ ns) (hk : k < i) (hi : i ≤ nv * ns)
    (hresp : resp i = []) :
    (∀ pids : List Str, mkRecHR [] pids = ⟨[], [], [], []⟩)
  ∧ (∀ pids : List Str, mkRecSWE [] pids = ⟨[], [], [], []⟩)
  ∧ [Ev.invoke i, Ev.append i ⟨[], [], [], []⟩, Ev.saveCp i]
      <:+: hrTrace resp pidsOf nv ns k
  ∧ i ∈ appendedIdx (hrTrace resp pidsOf nv ns k) := by
  have hkle : k ≤ nv * ns := by omega
  have hrec : hrRecOf resp pidsOf (viOf ns i) i = ⟨[], [], [], []⟩ := by
    unfold hrRecOf
    rw [hresp]
    rfl
  refine ⟨fun pids => rfl, fun pids => rfl, ?_, ?_⟩
  · have h := processed_block_infix (hrRecOf resp pidsOf) nv ns k i hns hkle hk hi
    rw [hrec] at h
    exact h
  · unfold hrTrace
    rw [runnerTrace_eq (hrRecOf resp pidsOf) nv ns k hns]
    rw [(projections_normal (hrRecOf resp pidsOf) ns k (nv * ns) 1).2.2.1]
    rw [filter_range'_gt k (nv * ns) hkle, List.mem_range'_1]
    omega

/-- Witness for C6 at a concrete empty-response oracle. -/
theorem failed_call_record_witness :
    (2:Nat) ∈ appendedIdx (hrTrace (fun _ => []) (fun _ => []) 2 1 1) :=
  (failed_call_record (fun _ => []) (fun _ => []) 2 1 1 2
    (by decide) (by decide) (by decide) rfl).2.2.2

/-- Record appends distribute over trace concatenation. -/
theorem appendedIdx_append (l1 l2 : List Ev) :
    appendedIdx (l1 ++ l2) = appendedIdx l1 ++ appendedIdx l2 :=
  List.filterMap_append l1 l2 _

/-- The on-disk checkpoint after concatenated traces. -/
theorem lastCpFrom_append (c : Nat) (l1 l2 : List Ev) :
    lastCpFrom c (l1 ++ l2) = lastCpFrom (lastCpFrom c l1) l2 :=
  List.foldl_append _ c l1 l2

/-- A fold that ignores its elements is constant. -/
theorem foldl_const {α : Type} (c : Nat) :
    ∀ l : List α, l.foldl (fun acc _ => acc) c = c := by
  intro l
  induction l with
  | nil => rfl
  | cons x xs ih => exact ih

/-- A trace of skip events appends no record and writes no checkpoint. -/
theorem skip_map_inert (c : Nat) (lx : List Nat) :
    appendedIdx (lx.map Ev.skip) = [] ∧ lastCpFrom c (lx.map Ev.skip) = c := by
  constructor
  · unfold appendedIdx
    rw [List.filterMap_map]
    have : ∀ i : Nat,
        ((fun e => match e with | Ev.append i _ => some i | _ => none) ∘ Ev.skip) i
          = none := fun i => rfl
    calc List.filterMap _ lx = List.filterMap (fun _ => none) lx := by
          exact List.filterMap_congr (fun x _ => this x)
      _ = [] := by simp
  · unfold lastCpFrom
    rw [List.foldl_map]
    exact foldl_const c lx

/-- Below the checkpoint the normal trace is pure skip events. -/
theorem normalTrace_skip_map (recOf : Nat → Nat → RecData) (ns k : Nat) :
    ∀ (n lo : Nat), lo + n ≤ k + 1 →
      normalTrace recOf ns k lo n = (List.range' lo n).map Ev.skip := by
  intro n
  induction n with
  | zero => intro lo _; rfl
  | succ m ih =>
    intro lo h
    rw [normalTrace_succ, List.range'_succ, List.map_cons]
    unfold blockOf
    rw [if_pos (by omega)]
    rw [ih (lo + 1) (by omega)]
    rfl

/-- Characterization of an arbitrary prefix of the processed region of the
trace: some number of scenarios are fully processed and checkpointed, and
at most one further record is appended without its checkpoint write. -/
theorem take_proc (recOf : Nat → Nat → RecData) (ns k : Nat) :
    ∀ (r kk m : Nat), k ≤ kk →
      ∃ j mid, kk ≤ j ∧ j ≤ kk + r ∧ (mid = true → j < kk + r)
      ∧ appendedIdx ((normalTrace recOf ns k (kk + 1) r).take m)
          = List.range' (kk + 1) (j - kk) ++ (if mid then [j + 1] else [])
      ∧ lastCpFrom kk ((normalTrace recOf ns k (kk + 1) r).take m) = j := by
  intro r
  induction r with
  | zero =>
    intro kk m _
    refine ⟨kk, false, le_rfl, by omega, by simp, ?_, ?_⟩
    · simp [normalTrace_nil, appendedIdx]
    · simp [normalTrace_nil, lastCpFrom]
  | succ r ih =>
    intro kk m hkk
    rw [normalTrace_succ]
    have hblk : blockOf recOf ns k (kk + 1)
        = [Ev.invoke (kk + 1), Ev.append (kk + 1) (recOf (viOf ns (kk + 1)) (kk + 1)),
           Ev.saveCp (kk + 1), Ev.pace (kk + 1)] := by
      unfold blockOf
      rw [if_neg (by omega)]
    rw [hblk, List.take_append_eq_append_take]
    set blk : List Ev := [Ev.invoke (kk + 1),
      Ev.append (kk + 1) (recOf (viOf ns (kk + 1)) (kk + 1)),
      Ev.saveCp (kk + 1), Ev.pace (kk + 1)] with hblkdef
    have hlen4 : blk.length = 4 := by rw [hblkdef]; rfl
    by_cases hm4 : m < 4
    · have htail : m - blk.length = 0 := by omega
      rw [htail, List.take_zero, List.append_nil]
      interval_cases m
      · refine ⟨kk, false, le_rfl, by omega, by simp, ?_, ?_⟩
        · simp [appendedIdx]
        · simp [lastCpFrom]
      · refine ⟨kk, false, le_rfl, by omega, by simp, ?_, ?_⟩
        · rw [hblkdef]; simp [appendedIdx, List.filterMap_cons]
        · rw [hblkdef]; simp [lastCpFrom]
      · refine ⟨kk, true, le_rfl, by omega, fun _ => by omega, ?_, ?_⟩
        · rw [hblkdef]; simp [appendedIdx, List.filterMap_cons]
        · rw [hblkdef]; simp [lastCpFrom]
      · refine ⟨kk + 1, false, by omega, by omega, by simp, ?_, ?_⟩
        · rw [hblkdef]
          simp [appendedIdx, List.filterMap_cons]
        · rw [hblkdef]; simp [lastCpFrom]
    · have htake : List.take m blk = blk := List.take_of_length_le (by omega)
      rw [htake, hlen4]
      obtain ⟨j, mid, hj1, hj2, hj3, happ, hcp⟩ := ih (kk + 1) (m - 4) (by omega)
      refine ⟨j, mid, by omega, by omega, fun hm => by have := hj3 hm; omega, ?_, ?_⟩
      · rw [appendedIdx_append]
        have hone : appendedIdx blk = [kk + 1] := by
          rw [hblkdef]
          simp [appendedIdx, List.filterMap_cons]
        rw [hone, happ]
        have hrange : List.range' (kk + 1) (j - kk)
            = (kk + 1) :: List.range' (kk + 2) (j - (kk + 1)) := by
          rw [show j - kk = (j - (kk + 1)) + 1 from by omega, List.range'_succ]
        rw [hrange]
        simp
      · rw [lastCpFrom_append]
        have hb : lastCpFrom kk blk = kk + 1 := by
          rw [hblkdef]
          simp [lastCpFrom]
        rw [hb]
        exact hcp

/-- Characterization of an arbitrary prefix of one execution trace: the
records appended are exactly the consecutive indices after the checkpoint
up to some `j`, possibly plus one record for `j + 1` whose checkpoint
write was cut off, and the persisted checkpoint is `j`. -/
theorem take_exec (recOf : Nat → Nat → RecData) (ns k total n : Nat) (hk : k ≤ total) :
    ∃ j mid, k ≤ j ∧ j ≤ total ∧ (mid = true → j < total)
    ∧ appendedIdx ((normalTrace recOf ns k 1 total).take n)
        = List.range' (k + 1) (j - k) ++ (if mid then [j + 1] else [])
    ∧ lastCpFrom k ((normalTrace recOf ns k 1 total).take n) = j := by
  have hsplit : normalTrace recOf ns k 1 total
      = (List.range' 1 k).map Ev.skip ++ normalTrace recOf ns k (1 + k) (total - k) := by
    rw [show total = k + (total - k) from by omega, normalTrace_append]
    rw [normalTrace_skip_map recOf ns k k 1 (by omega)]
    congr 2
    omega
  rw [hsplit, List.take_append_eq_append_take]
  have hslen : ((List.range' 1 k).map Ev.skip).length = k := by
    rw [List.length_map, List.length_range']
  have htk : ((List.range' 1 k).map Ev.skip).take n
      = List.map Ev.skip ((List.range' 1 k).take n) :=
    (List.map_take Ev.skip (List.range' 1 k) n).symm
  obtain ⟨j, mid, hj1, hj2, hj3, happ, hcp⟩ :=
    take_proc recOf ns k (total - k) k (n - ((List.range' 1 k).map Ev.skip).length)
      le_rfl
  refine ⟨j, mid, hj1, by omega, fun hm => by have := hj3 hm; omega, ?_, ?_⟩
  · rw [appendedIdx_append, htk, (skip_map_inert 0 ((List.range' 1 k).take n)).1,
        List.nil_append]
    rw [show (1 : Nat) + k = k + 1 from by omega]
    exact happ
  · rw [lastCpFrom_append, htk, (skip_map_inert k ((List.range' 1 k).take n)).2]
    rw [show (1 : Nat) + k = k + 1 from by omega]
    exact hcp

/-- The records appended by a full uninterrupted run from checkpoint `k`
are exactly the indices `k+1 … total`. -/
theorem appendedIdx_full (recOf : Nat → Nat → RecData) (nv ns k : Nat)
    (hns : 1 ≤ ns) (hk : k ≤ nv * ns) :
    appendedIdx (runnerTrace recOf nv ns k) = List.range' (k + 1) (nv * ns - k) := by
  rw [runnerTrace_eq recOf nv ns k hns,
      (projections_normal recOf ns k (nv * ns) 1).2.2.1,
      filter_range'_gt k (nv * ns) hk]

/-- One interrupted process start preserves the coverage invariant: the
persisted checkpoint stays within range and every index up to it has a
record in some log file. -/
theorem runStep_cov (resp : Nat → Str) (pidsOf : Nat → List Str) (nv ns : Nat)
    (hns : 1 ≤ ns) (st : Nat × List (List Nat)) (cut : Nat)
    (h1 : st.1 ≤ nv * ns)
    (h2 : ∀ i, 1 ≤ i → i ≤ st.1 → i ∈ st.2.flatten) :
    (runStep resp pidsOf nv ns st cut).1 ≤ nv * ns
    ∧ ∀ i, 1 ≤ i → i ≤ (runStep resp pidsOf nv ns st cut).1 →
        i ∈ (runStep resp pidsOf nv ns st cut).2.flatten := by
  obtain ⟨j, mid, hj1, hj2, hj3, happ, hcp⟩ :=
    take_exec (hrRecOf resp pidsOf) ns st.1 (nv * ns) cut h1
  have htr : hrTrace resp pidsOf nv ns st.1
      = normalTrace (hrRecOf resp pidsOf) ns st.1 1 (nv * ns) := by
    unfold hrTrace
    exact runnerTrace_eq _ nv ns st.1 hns
  simp only [runStep, htr, hcp]
  by_cases hc : (normalTrace (hrRecOf resp pidsOf) ns st.1 1 (nv * ns)).length ≤ cut
      ∧ nv * ns ≤ j
  · rw [if_pos hc]
    refine ⟨by omega, ?_⟩
    intro i hi1 hi2
    omega
  · rw [if_neg hc]
    refine ⟨by omega, ?_⟩
    intro i hi1 hi2
    simp only [List.flatten_append, List.flatten_cons, List.flatten_nil,
      List.append_nil, List.mem_append]
    by_cases hile : i ≤ st.1
    · exact Or.inl (h2 i hi1 hile)
    · right
      rw [happ, List.mem_append]
      left
      rw [List.mem_range'_1]
      omega

/-- Any sequence of interrupted executions preserves the coverage
invariant. -/
theorem runSeq_cov (resp : Nat → Str) (pidsOf : Nat → List Str) (nv ns : Nat)
    (hns : 1 ≤ ns) :
    ∀ (cuts : List Nat) (st : Nat × List (List Nat)),
      st.1 ≤ nv * ns →
      (∀ i, 1 ≤ i → i ≤ st.1 → i ∈ st.2.flatten) →
      (cuts.foldl (runStep resp pidsOf nv ns) st).1 ≤ nv * ns
      ∧ ∀ i, 1 ≤ i → i ≤ (cuts.foldl (runStep resp pidsOf nv ns) st).1 →
          i ∈ (cuts.foldl (runStep resp pidsOf nv ns) st).2.flatten := by
  intro cuts
  induction cuts with
  | nil =>
    intro st h1 h2
    exact ⟨h1, h2⟩
  | cons cut rest ih =>
    intro st h1 h2
    rw [List.foldl_cons]
    obtain ⟨g1, g2⟩ := runStep_cov resp pidsOf nv ns hns st cut h1 h2
    exact ih (runStep resp pidsOf nv ns st cut) g1 g2

/-- A valid sequence of interrupted executions (no completion mid-sequence
and no cut between a record append and its checkpoint write) keeps the
union of all log files exactly equal to the indices up to the persisted
checkpoint. -/
theorem runSeq_exact (resp : Nat → Str) (pidsOf : Nat → List Str) (nv ns : Nat)
    (hns : 1 ≤ ns) :
    ∀ (cuts : List Nat) (st : Nat × List (List Nat)),
      st.1 ≤ nv * ns →
      st.2.flatten = List.range' 1 st.1 →
      cutsOk resp pidsOf nv ns st.1 cuts = true →
      (cuts.foldl (runStep resp pidsOf nv ns) st).1 ≤ nv * ns
      ∧ (cuts.foldl (runStep resp pidsOf nv ns) st).2.flatten
          = List.range' 1 (cuts.foldl (runStep resp pidsOf nv ns) st).1 := by
  intro cuts
  induction cuts with
  | nil =>
    intro st h1 h2 _
    exact ⟨h1, h2⟩
  | cons cut rest ih =>
    intro st h1 h2 hok
    obtain ⟨j, mid, hj1, hj2, hj3, happ, hcp⟩ :=
      take_exec (hrRecOf resp pidsOf) ns st.1 (nv * ns) cut h1
    have htr : hrTrace resp pidsOf nv ns st.1
        = normalTrace (hrRecOf resp pidsOf) ns st.1 1 (nv * ns) := by
      unfold hrTrace
      exact runnerTrace_eq _ nv ns st.1 hns
    unfold cutsOk at hok
    rw [htr] at hok
    simp only [hcp, Bool.and_eq_true, decide_eq_true_eq] at hok
    obtain ⟨⟨hlt, hall⟩, hrest⟩ := hok
    have hmid : mid = false := by
      cases mid with
      | false => rfl
      | true =>
        have hjmem : j + 1 ∈ appendedIdx
            ((normalTrace (hrRecOf resp pidsOf) ns st.1 1 (nv * ns)).take cut) := by
          rw [happ]
          simp
        rw [List.all_eq_true] at hall
        have := hall (j + 1) hjmem
        simp at this
    subst hmid
    have hst : runStep resp pidsOf nv ns st cut
        = (j, st.2 ++ [appendedIdx
            ((normalTrace (hrRecOf resp pidsOf) ns st.1 1 (nv * ns)).take cut)]) := by
      simp only [runStep, htr, hcp]
      rw [if_neg (by omega)]
    rw [List.foldl_cons, hst]
    apply ih (j, st.2 ++ [appendedIdx
        ((normalTrace (hrRecOf resp pidsOf) ns st.1 1 (nv * ns)).take cut)])
    · exact hj2
    · simp only [List.flatten_append, List.flatten_cons, List.flatten_nil,
        List.append_nil]
      rw [h2, happ]
      simp only [if_neg (by simp : ¬ false = true), List.append_nil]
      have hr := List.range'_append 1 st.1 (j - st.1) 1
      simp only [one_mul] at hr
      rw [show (1 + st.1) = st.1 + 1 from by omega] at hr
      rw [hr]
      congr 1
      omega
    · exact hrest

/-- Counterexample to claim C1 as stated: with two scenarios, a first
execution killed right after logging scenario 1 and a resumed execution
that completes, the completing run's log file (a fresh timestamped file)
contains only index 2 — the final run log has a gap at index 1, which
lives only in the earlier file. -/
theorem exactly_once_accounting_counterexample :
    finalFiles (fun _ => ([] : Str)) (fun _ => ([] : List Str)) 2 1 [4] = [[1], [2]]
  ∧ (finalFiles (fun _ => ([] : Str)) (fun _ => ([] : List Str)) 2 1 [4]).getLastD []
      = [2]
  ∧ (1:Nat) ∉
      (finalFiles (fun _ => ([] : Str)) (fun _ => ([] : List Str)) 2 1 [4]).getLastD []
  ∧ (1:Nat) ≤ 1 ∧ (1:Nat) ≤ 2 * 1 := by
  refine ⟨by decide, by decide, by decide, by decide, by decide⟩

/-- Claim C1 (amended): for every sequence of interrupted executions
followed by a completing one, the union of all run-log files covers every
global index 1 … total; and when no interruption falls between a record
append and its checkpoint write (and none completes the run mid-sequence),
that union contains exactly one record per global index. -/
theorem exactly_once_accounting_amended (resp : Nat → Str) (pidsOf : Nat → List Str)
    (nv ns : Nat) (cuts : List Nat) (hns : 1 ≤ ns) :
    (∀ i, 1 ≤ i → i ≤ nv * ns → i ∈ (finalFiles resp pidsOf nv ns cuts).flatten)
  ∧ (cutsOk resp pidsOf nv ns 0 cuts = true →
      (finalFiles resp pidsOf nv ns cuts).flatten = List.range' 1 (nv * ns)
      ∧ ∀ i, 1 ≤ i → i ≤ nv * ns →
          ((finalFiles resp pidsOf nv ns cuts).flatten).count i = 1) := by
  have hfin : finalFiles resp pidsOf nv ns cuts
      = (cuts.foldl (runStep resp pidsOf nv ns) (0, [])).2
        ++ [appendedIdx (hrTrace resp pidsOf nv ns
              (cuts.foldl (runStep resp pidsOf nv ns) (0, [])).1)] := by
    simp only [finalFiles, runSeqSt]
  constructor
  · intro i hi1 hi2
    have hg := runSeq_cov resp pidsOf nv ns hns cuts (0, [])
      (by simp) (fun i2 hi hle => absurd hle (by omega))
    rw [hfin]
    simp only [List.flatten_append, List.flatten_cons, List.flatten_nil,
      List.append_nil, List.mem_append]
    by_cases hc : i ≤ (cuts.foldl (runStep resp pidsOf nv ns) (0, [])).1
    · exact Or.inl (hg.2 i hi1 hc)
    · right
      have happf : appendedIdx (hrTrace resp pidsOf nv ns
            (cuts.foldl (runStep resp pidsOf nv ns) (0, [])).1)
          = List.range'
              ((cuts.foldl (runStep resp pidsOf nv ns) (0, [])).1 + 1)
              (nv * ns - (cuts.foldl (runStep resp pidsOf nv ns) (0, [])).1) := by
        unfold hrTrace
        exact appendedIdx_full _ nv ns _ hns hg.1
      rw [happf, List.mem_range'_1]
      omega
  · intro hok
    have hg := runSeq_exact resp pidsOf nv ns hns cuts (0, []) (by simp) (by simp) hok
    have happf : appendedIdx (hrTrace resp pidsOf nv ns
          (cuts.foldl (runStep resp pidsOf nv ns) (0, [])).1)
        = List.range'
            ((cuts.foldl (runStep resp pidsOf nv ns) (0, [])).1 + 1)
            (nv * ns - (cuts.foldl (runStep resp pidsOf nv ns) (0, [])).1) := by
      unfold hrTrace
      exact appendedIdx_full _ nv ns _ hns hg.1
    have hflat : (finalFiles resp pidsOf nv ns cuts).flatten
        = List.range' 1 (nv * ns) := by
      rw [hfin]
      simp only [List.flatten_append, List.flatten_cons, List.flatten_nil,
        List.append_nil]
      rw [hg.2, happf]
      have hr := List.range'_append 1
        ((cuts.foldl (runStep resp pidsOf nv ns) (0, [])).1)
        (nv * ns - (cuts.foldl (runStep resp pidsOf nv ns) (0, [])).1) 1
      simp only [one_mul] at hr
      rw [show (1 + (cuts.foldl (runStep resp pidsOf nv ns) (0, [])).1)
            = (cuts.foldl (runStep resp pidsOf nv ns) (0, [])).1 + 1 from by omega] at hr
      rw [hr]
      congr 1
      have := hg.1
      omega
    refine ⟨hflat, ?_⟩
    intro i hi1 hi2
    rw [hflat]
    exact List.count_eq_one_of_mem (List.nodup_range' 1 (nv * ns) 1 (by norm_num))
      (by rw [List.mem_range'_1]; omega)

/-- Witness for C1 (amended) at a concrete interrupted-then-resumed run
pair over two scenarios. -/
theorem exactly_once_accounting_witness :
    (1:Nat) ∈
      (finalFiles (fun _ => ([] : Str)) (fun _ => ([] : List Str)) 2 1 [4]).flatten
  ∧ (finalFiles (fun _ => ([] : Str)) (fun _ => ([] : List Str)) 2 1 [4]).flatten
      = List.range' 1 (2 * 1) :=
  ⟨(exactly_once_accounting_amended (fun _ => ([] : Str)) (fun _ => ([] : List Str))
      2 1 [4] (by decide)).1 1 (by decide) (by decide),
   ((exactly_once_accounting_amended (fun _ => ([] : Str)) (fun _ => ([] : List Str))
      2 1 [4] (by decide)).2 (by decide)).1⟩
